import Mathlib

/-!
Verification model of the LP-APR batch script of this repository
(`fetchAndUpdateLPsAPR` and its helpers).

Modelling conventions:
* Decimal values held in `bignumber.js` `BigNumber` objects are embedded as
  the inductive `BigNum` below: `NaN`, signed `Infinity`, or a finite
  arbitrary-precision decimal represented as a rational number.  The decimal
  strings returned by the subgraph (`volumeUSD`, `reserveUSD`,
  `virtualPrice`) are modelled as already-parsed rationals.
* `BigNumber.minus` and `BigNumber.times` on finite values are exact, so they
  are modelled by exact rational arithmetic.  `BigNumber.dividedBy` rounds
  its result to `DECIMAL_PLACES` decimal places (library default: 20) using
  `ROUNDING_MODE` (library default: 4, round-half-up, ties away from zero);
  the script never calls `BigNumber.config`, so the defaults apply.
  `BigNumber.exponentiatedBy` with a positive integer exponent and the
  default `POW_PRECISION = 0` is exact.  `BigNumber.decimalPlaces(d)` rounds
  to `d` decimal places with the same half-up mode.
* The trailing `.toNumber()` conversions store the rounded decimal into a JS
  number; the value is modelled as the exact rounded decimal.
* Network interactions (GraphQL requests, dynamic module imports) are
  modelled by passing the environment's response - or its failure - as an
  explicit argument; `console.error` logging is modelled by returning a flag
  or a count of emitted log events.
-/

/-- Round a rational to the nearest integer, ties away from zero; this is
`bignumber.js` rounding mode 4 (`ROUND_HALF_UP`), the library default. -/
def roundHalfUp (q : ℚ) : ℤ :=
  if 0 ≤ q then ⌊q + 1 / 2⌋ else -⌊-q + 1 / 2⌋

/-- Iterated product, used for powers of rationals. -/
def qpow (q : ℚ) : ℕ → ℚ
  | 0 => 1
  | n + 1 => qpow q n * q

/-- Round a rational to `dp` decimal places, half-up (ties away from zero). -/
def roundDp (dp : ℕ) (q : ℚ) : ℚ :=
  (roundHalfUp (q * qpow 10 dp) : ℚ) / qpow 10 dp

/-- A `bignumber.js` `BigNumber` value: `NaN`, a signed infinity
(`inf true` is negative infinity), or a finite decimal. -/
inductive BigNum where
  | nan : BigNum
  | inf : Bool → BigNum
  | fin : ℚ → BigNum

/-- `BigNumber` subtraction (`minus`): exact on finite values, `NaN`
absorbing, infinities with matching signs give `NaN`. -/
def BigNum.minus : BigNum → BigNum → BigNum
  | nan, _ => nan
  | _, nan => nan
  | inf s, inf t => if s = t then nan else inf s
  | inf s, fin _ => inf s
  | fin _, inf t => inf (!t)
  | fin a, fin b => fin (a - b)

/-- `BigNumber` division (`dividedBy`): the finite/finite case rounds to the
default 20 decimal places half-up; division by zero gives a signed infinity
(`NaN` for `0/0`); `NaN` is absorbing. -/
def BigNum.div : BigNum → BigNum → BigNum
  | nan, _ => nan
  | _, nan => nan
  | inf _, inf _ => nan
  | inf s, fin b => inf (xor s (decide (b < 0)))
  | fin _, inf _ => fin 0
  | fin a, fin b =>
    if b = 0 then (if a = 0 then nan else inf (decide (a < 0)))
    else fin (roundDp 20 (a / b))

/-- `BigNumber` integer power (`pow`); exponent `0` yields `1` as in JS,
positive powers of infinities keep the sign for odd exponents, finite powers
are exact (`POW_PRECISION = 0`, the default). -/
def BigNum.pow : BigNum → ℕ → BigNum
  | _, 0 => fin 1
  | nan, _ + 1 => nan
  | inf s, n + 1 => inf (s && decide ((n + 1) % 2 = 1))
  | fin a, n + 1 => fin (qpow a (n + 1))

/-- `BigNumber.decimalPlaces(dp)`: round a finite value to `dp` decimal
places half-up; `NaN` and infinities are unchanged. -/
def BigNum.decimalPlaces (dp : ℕ) : BigNum → BigNum
  | nan => nan
  | inf s => inf s
  | fin a => fin (roundDp dp a)

/-- `new BigNumber(x)` applied to a possibly-`undefined` value: with the
default `DEBUG = false`, `new BigNumber(undefined)` silently yields `NaN`. -/
def BigNum.ofOption : Option ℚ → BigNum
  | none => nan
  | some q => fin q

/-- The `LP_HOLDERS_FEE` constant of the script (`0.0025`). -/
def LP_HOLDERS_FEE : ℚ := 25 / 10000

/-- The `WEEKS_IN_A_YEAR` constant of the script (`52.1429`). -/
def WEEKS_IN_A_YEAR : ℚ := 521429 / 10000

/-- One `pairs` entity of the info subgraph, as returned by the `farmsBulk`
query (`id`, `reserveUSD`, `volumeUSD`); the two decimal strings are
modelled as parsed rationals. -/
structure SingleFarmResponse where
  id : String
  reserveUSD : ℚ
  volumeUSD : ℚ
deriving DecidableEq

/-- The response of the `farmsBulk` query: the pairs at the latest block and
at the one-week-ago block. -/
structure FarmsResponse where
  farmsAtLatestBlock : List SingleFarmResponse
  farmsOneWeekAgo : List SingleFarmResponse

/-- A JS object mapping LP addresses to `BigNumber` APR values. -/
def AprMap : Type := String → Option BigNum

/-- The empty JS object `{}`. -/
def emptyAprMap : AprMap := fun _ => none

/-- `{ ...m, [k]: v }`: add or overwrite one key. -/
def insertApr (m : AprMap) (k : String) (v : BigNum) : AprMap :=
  fun s => if s = k then some v else m s

/-- `{ ...m1, ...m2 }`: entries of `m2` override entries of `m1`. -/
def mergeAprMap (m1 m2 : AprMap) : AprMap :=
  fun s => match m2 s with
  | some v => some v
  | none => m1 s

/-- The per-farm APR of `getAprsForFarmGroup` before the 2-decimal rounding:
`0` when the farm is missing from the week-ago snapshot, else the annualized
LP fees over liquidity when those fees are positive, else `0`. -/
def rawLpApr (farm : SingleFarmResponse) (farmsOneWeekAgo : List SingleFarmResponse) : BigNum :=
  match farmsOneWeekAgo.find? (fun oldFarm => oldFarm.id == farm.id) with
  | none => .fin 0
  | some farmWeekAgo =>
    let volume7d := farm.volumeUSD - farmWeekAgo.volumeUSD
    let lpFees7d := volume7d * LP_HOLDERS_FEE
    let lpFeesInAYear := lpFees7d * WEEKS_IN_A_YEAR
    if 0 < lpFeesInAYear then
      BigNum.div (.fin (lpFeesInAYear * 100)) (.fin farm.reserveUSD)
    else .fin 0

/-- The `reduce` of `getAprsForFarmGroup`: builds the APR object keyed by
`farm.id`, each value rounded to 2 decimal places. -/
def aprsFromResponse (r : FarmsResponse) : AprMap :=
  r.farmsAtLatestBlock.foldl
    (fun aprMap farm =>
      insertApr aprMap farm.id (BigNum.decimalPlaces 2 (rawLpApr farm r.farmsOneWeekAgo)))
    emptyAprMap

/-- The info subgraph's pair store at the two queried blocks: `latest` is the
state at the latest block, `weekAgo` the state at `blockWeekAgo`.  A pair
store is keyed by `id`; theorems assume the ids are duplicate-free where
they need it. -/
structure PairDb where
  latest : List SingleFarmResponse
  weekAgo : List SingleFarmResponse

/-- `pairs(first: 30, where: { id_in: addresses })`: the pairs whose id is in
`addresses`, in store order, truncated to the first 30. -/
def pairsQuery (db : List SingleFarmResponse) (addresses : List String) : List SingleFarmResponse :=
  (db.filter (fun p => decide (p.id ∈ addresses))).take 30

/-- `getAprsForFarmGroup`, with the GraphQL round trip replaced by the
subgraph state `db`: runs the `farmsBulk` query for `addresses` at the two
blocks and reduces the result to an APR object. -/
def getAprsForFarmGroup (db : PairDb) (addresses : List String) : AprMap :=
  aprsFromResponse ⟨pairsQuery db.latest addresses, pairsQuery db.weekAgo addresses⟩

/-- Modelled from the spec ("computing APR for all N addresses in one
unbounded call"): the same APR computation, but the snapshot query returns
every matching pair with no `first: 30` truncation.  This is the spec-side
definition of claim C3's refinement comparison. -/
def getAprsForFarmsUnbounded (db : PairDb) (addresses : List String) : AprMap :=
  aprsFromResponse
    ⟨db.latest.filter (fun p => decide (p.id ∈ addresses)),
     db.weekAgo.filter (fun p => decide (p.id ∈ addresses))⟩

/-- `lodash/chunk(list, 30)`: split a list into consecutive groups of 30,
the last group possibly shorter. -/
def chunk30 : List α → List (List α)
  | [] => []
  | x :: rest => (x :: rest).take 30 :: chunk30 ((x :: rest).drop 30)
termination_by l => l.length
decreasing_by
  simp only [List.length_drop, List.length_cons]
  omega

/-- One entry of a per-chain farm-configuration list
(`SerializedFarmConfig`); only the fields the script reads are modelled.
`pid` is `none` for a JS `null` pid; `stableSwapAddress` is `none` when the
field is absent. -/
structure FarmConfig where
  pid : Option ℤ
  lpAddress : String
  stableSwapAddress : Option String
deriving DecidableEq

/-- Truthiness of `farm?.stableSwapAddress`: present and a non-empty
string. -/
def isStableFarm (farm : FarmConfig) : Bool :=
  match farm.stableSwapAddress with
  | none => false
  | some s => s != ""

/-- The accumulator of `splitNormalAndStableFarmsReducer`. -/
structure SplitFarmResult where
  normalFarms : List FarmConfig
  stableFarms : List FarmConfig
deriving DecidableEq

/-- `splitNormalAndStableFarmsReducer`: push the farm onto `stableFarms`
when `farm?.stableSwapAddress` is truthy, else onto `normalFarms`. -/
def splitNormalAndStableFarmsReducer (result : SplitFarmResult) (farm : FarmConfig) : SplitFarmResult :=
  if isStableFarm farm then
    { normalFarms := result.normalFarms, stableFarms := result.stableFarms ++ [farm] }
  else
    { stableFarms := result.stableFarms, normalFarms := result.normalFarms ++ [farm] }

/-- One block of the block-indexing subgraph: its `number` and its
`timestamp`. -/
structure BlockEntry where
  number : ℕ
  timestamp : ℤ
deriving DecidableEq

/-- The error thrown by `getBlockAtTimestamp`
(`Failed to fetch block number for ${timestamp}\n${error}`), modelled as a
value carrying the timestamp the message names. -/
structure BlockFetchError where
  timestamp : ℤ
deriving DecidableEq

/-- `getBlockAtTimestamp`, with the block subgraph replaced by its block
store `blockDb` and the per-chain endpoint table by `blockClient` (`none`
when `BLOCKS_CLIENT_WITH_CHAIN[chainId]` is undefined).  The
`blocks(first: 1, where: { timestamp_gt, timestamp_lt })` query is the first
stored block with timestamp strictly between `timestamp` and
`timestamp + 600`; any failure (missing endpoint, or `blocks[0]` undefined)
is caught and rethrown as a `BlockFetchError` naming the timestamp. -/
def getBlockAtTimestamp (blockClient : Option String) (blockDb : List BlockEntry)
    (timestamp : ℤ) : Except BlockFetchError ℕ :=
  match blockClient with
  | none => .error ⟨timestamp⟩
  | some _ =>
    match blockDb.find? (fun b =>
        decide (timestamp < b.timestamp) && decide (b.timestamp < timestamp + 600)) with
    | some b => .ok b.number
    | none => .error ⟨timestamp⟩

/-- The response of the `virtualPriceStableSwap` query after the
`[0]?.virtualPrice` accesses: each field is `none` when the pair list is
empty or the price is missing, else the parsed price. -/
structure StableQueryResult where
  virtualPriceAtLatestBlock : Option ℚ
  virtualPriceOneDayAgo : Option ℚ

/-- `getAprsForStableFarm`, with the "one day ago" block resolution passed
in as `blockDayAgo` and the stable-swap subgraph round trip as `query`
(`Except.error` is a thrown request error).  Returns the computed
`BigNumber` and whether `console.error` ran: a thrown error is caught,
logged and turned into `0`; otherwise the result is
`current.div(prev).pow(365).minus(1)` on the possibly-`undefined` prices. -/
def getAprsForStableFarm (blockDayAgo : Except BlockFetchError ℕ)
    (query : ℕ → Except Unit StableQueryResult) : BigNum × Bool :=
  match blockDayAgo with
  | .error _ => (.fin 0, true)
  | .ok b =>
    match query b with
    | .error _ => (.fin 0, true)
    | .ok r =>
      let current := BigNum.ofOption r.virtualPriceAtLatestBlock
      let prev := BigNum.ofOption r.virtualPriceOneDayAgo
      (BigNum.minus (BigNum.pow (BigNum.div current prev) 365) (.fin 1), false)

/-- The stable-APR `reduce` of `fetchAndUpdateLPsAPR` (keying each rounded
APR by `stableFarms[index].lpAddress`); the index-based `reduce` over
`stableAprs` is modelled as a fold over the zip of the two equally long
lists.  Values are rounded to 5 decimal places. -/
def buildStableAprsMap (stableFarms : List FarmConfig) (stableAprs : List BigNum) : AprMap :=
  (stableFarms.zip stableAprs).foldl
    (fun result p => insertApr result p.1.lpAddress (BigNum.decimalPlaces 5 p.2))
    emptyAprMap

/-- `getFarmConfig`, with the dynamic `import` of the per-chain module
passed in as `loadResult` and the module-level `logged` flag threaded
through.  Returns the farm list, the new flag, and how many
`console.error('Cannot get farm config', ...)` events this call emitted. -/
def getFarmConfig (loadResult : Except Unit (List FarmConfig)) (logged : Bool) :
    List FarmConfig × Bool × ℕ :=
  match loadResult with
  | .ok farms => (farms.filter (fun f => decide (f.pid ≠ none)), logged, 0)
  | .error _ => ([], true, if logged then 0 else 1)

/-- One `getFarmConfig` invocation threaded through the accumulated
`(logged flag, emitted log count)` state. -/
def getFarmConfigStep (acc : Bool × ℕ) (loadResult : Except Unit (List FarmConfig)) : Bool × ℕ :=
  ((getFarmConfig loadResult acc.1).2.1, acc.2 + (getFarmConfig loadResult acc.1).2.2)

/-- A sequence of `getFarmConfig` invocations sharing the process-lifetime
`logged` flag (initially `false`); returns the final flag and the total
number of emitted log events. -/
def runGetFarmConfigs (loadResults : List (Except Unit (List FarmConfig))) : Bool × ℕ :=
  loadResults.foldl getFarmConfigStep (false, 0)

/-- JS `String.prototype.toLowerCase` on one character, for the ASCII range
the LP addresses use. -/
def charToLower (c : Char) : Char :=
  if 65 ≤ c.toNat ∧ c.toNat ≤ 90 then Char.ofNat (c.toNat + 32) else c

/-- JS `String.prototype.toLowerCase` (ASCII model). -/
def toLowerStr (s : String) : String := ⟨s.data.map charToLower⟩

/-- The environment one chain's iteration of `fetchAndUpdateLPsAPR` runs
against: the loaded farm configuration, the info subgraph's pair store at
the latest and week-ago blocks, the resolved "one day ago" block, and the
stable-swap subgraph round trip for each stable farm. -/
structure ChainEnv where
  farmsConfig : List FarmConfig
  pairDb : PairDb
  blockDayAgo : Except BlockFetchError ℕ
  stableQuery : FarmConfig → ℕ → Except Unit StableQueryResult

/-- A sample environment: one normal farm and one stable farm, both with
mixed-case configured LP addresses. -/
def sampleChainEnv : ChainEnv :=
  ⟨[⟨some 1, "0xAbC", none⟩, ⟨some 2, "0xDeF", some "0xswap"⟩],
   ⟨[⟨"0xabc", 100, 10⟩], []⟩, .ok 1, fun _ _ => .ok ⟨some 1, some 1⟩⟩

/-- The farm partition computed by `fetchAndUpdateLPsAPR`:
`farmsConfig.reduce(splitNormalAndStableFarmsReducer, { normalFarms: [], stableFarms: [] })`. -/
def splitFarmsOf (env : ChainEnv) : SplitFarmResult :=
  env.farmsConfig.foldl splitNormalAndStableFarmsReducer ⟨[], []⟩

/-- The normal-farm side of `fetchAndUpdateLPsAPR`: lower-case the LP
addresses, chunk them into groups of 30, and accumulate
`allAprs = { ...allAprs, ...aprs }` over the sequential group fetches. -/
def normalFarmAprs (env : ChainEnv) : AprMap :=
  let lowerCaseAddresses := (splitFarmsOf env).normalFarms.map (fun farm => toLowerStr farm.lpAddress)
  (chunk30 lowerCaseAddresses).foldl
    (fun allAprs groupOfAddresses =>
      mergeAprMap allAprs (getAprsForFarmGroup env.pairDb groupOfAddresses))
    emptyAprMap

/-- The stable-farm side of `fetchAndUpdateLPsAPR`: compute every stable
farm's APR (in parallel in the script) and key the 5-decimal roundings by
the configured `lpAddress`. -/
def stableFarmAprs (env : ChainEnv) : AprMap :=
  let stableFarms := (splitFarmsOf env).stableFarms
  buildStableAprsMap stableFarms
    (stableFarms.map (fun f => (getAprsForStableFarm env.blockDayAgo (env.stableQuery f)).1))

/-- One chain's iteration of `fetchAndUpdateLPsAPR`, up to the JSON file
write: the merged APR object `{ ...allAprs, ...stableAprsMap }`. -/
def fetchAndUpdateLPsAPR (env : ChainEnv) : AprMap :=
  mergeAprMap (normalFarmAprs env) (stableFarmAprs env)

/-- The canonical per-address content of the APR object: the unique latest
pair with that id (when the store is duplicate-free), rounded.  This is a
proof-side abbreviation, used to compare group queries of any size. -/
def aprAt (db : PairDb) (s : String) : Option BigNum :=
  (db.latest.find? (fun p => p.id == s)).map
    (fun farm => BigNum.decimalPlaces 2 (rawLpApr farm db.weekAgo))

/-! Helper lemmas about the rounding arithmetic and the `BigNum` model. -/

theorem BigNum.fin_injEq (a b : ℚ) : (BigNum.fin a = BigNum.fin b) ↔ a = b := by
  constructor
  · intro h
    injection h
  · intro h
    rw [h]

theorem qpow_eq_pow (q : ℚ) : ∀ n : ℕ, qpow q n = q ^ n := by
  intro n
  induction n with
  | zero => rw [qpow, pow_zero]
  | succ k ih => rw [qpow, ih, pow_succ]

theorem roundHalfUp_eval (q : ℚ) (n : ℤ) (h0 : 0 ≤ q)
    (h1 : (n : ℚ) ≤ q + 1 / 2) (h2 : q + 1 / 2 < n + 1) : roundHalfUp q = n := by
  rw [roundHalfUp, if_pos h0]
  exact Int.floor_eq_iff.mpr ⟨h1, h2⟩

theorem roundDp_eval (dp : ℕ) (q r : ℚ) (n : ℤ)
    (hq : roundHalfUp (q * qpow 10 dp) = n) (hr : (n : ℚ) / qpow 10 dp = r) :
    roundDp dp q = r := by
  rw [roundDp, hq, hr]

theorem roundHalfUp_zero : roundHalfUp 0 = 0 := by
  apply roundHalfUp_eval <;> norm_num

theorem roundDp_zero (dp : ℕ) : roundDp dp 0 = 0 := by
  rw [roundDp, zero_mul, roundHalfUp_zero, Int.cast_zero, zero_div]

theorem BigNum.div_fin_of_ne (a b : ℚ) (h : b ≠ 0) :
    BigNum.div (.fin a) (.fin b) = .fin (roundDp 20 (a / b)) := by
  rw [BigNum.div, if_neg h]

/-! Helper lemmas about JS-object folds, `find?` and filtered queries. -/

theorem insertApr_self (m : AprMap) (k : String) (v : BigNum) : insertApr m k v k = some v := by
  rw [insertApr, if_pos rfl]

theorem insertApr_other (m : AprMap) (k : String) (v : BigNum) (s : String) (h : s ≠ k) :
    insertApr m k v s = m s := by
  rw [insertApr, if_neg h]

theorem foldl_insertApr_of_not_mem {α : Type} (key : α → String) (val : α → BigNum)
    (L : List α) (m0 : AprMap) (s : String) (h : ∀ x ∈ L, key x ≠ s) :
    (L.foldl (fun m x => insertApr m (key x) (val x)) m0) s = m0 s := by
  induction L generalizing m0 with
  | nil => rfl
  | cons a L ih =>
    rw [List.foldl_cons, ih _ (fun x hx => h x (List.mem_cons_of_mem a hx))]
    exact insertApr_other _ _ _ _ (fun hs => h a (List.mem_cons_self a L) hs.symm)

theorem foldl_insertApr_lookup {α : Type} (key : α → String) (val : α → BigNum)
    (L : List α) (m0 : AprMap) (s : String) (hnd : (L.map key).Nodup) :
    (L.foldl (fun m x => insertApr m (key x) (val x)) m0) s =
      match L.find? (fun x => key x == s) with
      | some x => some (val x)
      | none => m0 s := by
  induction L generalizing m0 with
  | nil => rfl
  | cons a L ih =>
    rw [List.map_cons, List.nodup_cons] at hnd
    obtain ⟨hka, hnd⟩ := hnd
    rw [List.foldl_cons, ih _ hnd]
    by_cases has : key a = s
    · have hfind : L.find? (fun x => key x == s) = none := by
        rw [List.find?_eq_none]
        intro x hx
        simp only [beq_iff_eq]
        intro hxs
        exact hka (by
          have : key x = key a := by rw [hxs, has]
          exact this ▸ List.mem_map_of_mem key hx)
      rw [hfind, List.find?_cons_of_pos _ (by simp [has])]
      exact has ▸ insertApr_self m0 (key a) (val a)
    · rw [List.find?_cons_of_neg _ (by simp [has])]
      cases hf : L.find? (fun x => key x == s) with
      | some x => rfl
      | none => exact insertApr_other _ _ _ _ (fun h => has h.symm)

theorem foldl_insertApr_ne_none {α : Type} (key : α → String) (val : α → BigNum)
    (L : List α) (m0 : AprMap) (s : String) :
    (L.foldl (fun m x => insertApr m (key x) (val x)) m0) s ≠ none
      ↔ (∃ x ∈ L, key x = s) ∨ m0 s ≠ none := by
  induction L generalizing m0 with
  | nil => simp [List.foldl_nil]
  | cons a L ih =>
    rw [List.foldl_cons, ih]
    by_cases has : s = key a
    · subst has
      rw [insertApr_self]
      simp
    · rw [insertApr_other _ _ _ _ has]
      constructor
      · rintro (⟨x, hx, hxs⟩ | hm)
        · exact Or.inl ⟨x, List.mem_cons_of_mem a hx, hxs⟩
        · exact Or.inr hm
      · rintro (⟨x, hx, hxs⟩ | hm)
        · rcases List.mem_cons.mp hx with rfl | hx2
          · exact absurd hxs.symm has
          · exact Or.inl ⟨x, hx2, hxs⟩
        · exact Or.inr hm

theorem find?_key_eq_of_mem_nodup {α : Type} (key : α → String) (L : List α) (a : α)
    (hnd : (L.map key).Nodup) (hm : a ∈ L) :
    L.find? (fun x => key x == key a) = some a := by
  induction L with
  | nil => cases hm
  | cons b L ih =>
    rw [List.map_cons, List.nodup_cons] at hnd
    obtain ⟨hb, hnd⟩ := hnd
    rcases List.mem_cons.mp hm with rfl | hm2
    · exact List.find?_cons_of_pos _ (by simp)
    · have hne : key b ≠ key a := fun h => hb (h ▸ List.mem_map_of_mem key hm2)
      rw [List.find?_cons_of_neg _ (by simp [hne]), ih hnd hm2]

theorem foldl_merge_ne_none {β : Type} (mapOf : β → AprMap) (L : List β) (m0 : AprMap)
    (s : String)
    (h : (L.foldl (fun acc x => mergeAprMap acc (mapOf x)) m0) s ≠ none) :
    (∃ x ∈ L, mapOf x s ≠ none) ∨ m0 s ≠ none := by
  induction L generalizing m0 with
  | nil => exact Or.inr h
  | cons a L ih =>
    rw [List.foldl_cons] at h
    rcases ih _ h with ⟨x, hx, hxs⟩ | hm
    · exact Or.inl ⟨x, List.mem_cons_of_mem a hx, hxs⟩
    · rw [mergeAprMap] at hm
      cases ha : mapOf a s with
      | some v => exact Or.inl ⟨a, List.mem_cons_self a L, by rw [ha]; exact fun h => Option.noConfusion h⟩
      | none =>
        rw [ha] at hm
        exact Or.inr hm

theorem pairsQuery_eq_filter (db : List SingleFarmResponse) (g : List String)
    (hnd : (db.map (fun p => p.id)).Nodup) (hlen : g.length ≤ 30) :
    pairsQuery db g = db.filter (fun p => decide (p.id ∈ g)) := by
  rw [pairsQuery]
  apply List.take_of_length_le
  have h1 : ((db.filter (fun p => decide (p.id ∈ g))).map (fun p => p.id)).Nodup :=
    (List.Sublist.map _ (List.filter_sublist db)).nodup hnd
  have h2 : ((db.filter (fun p => decide (p.id ∈ g))).map (fun p => p.id)) ⊆ g := by
    intro x hx
    rw [List.mem_map] at hx
    obtain ⟨p, hp, rfl⟩ := hx
    rw [List.mem_filter] at hp
    exact of_decide_eq_true hp.2
  have h3 := (h1.subperm h2).length_le
  rw [List.length_map] at h3
  omega

theorem find?_filter_mem (W : List SingleFarmResponse) (g : List String) (i : String)
    (hi : i ∈ g) :
    (W.filter (fun p => decide (p.id ∈ g))).find? (fun oldFarm => oldFarm.id == i)
      = W.find? (fun oldFarm => oldFarm.id == i) := by
  induction W with
  | nil => rfl
  | cons w W ih =>
    by_cases hw : w.id = i
    · have hkeep : (decide (w.id ∈ g)) = true := decide_eq_true (hw ▸ hi)
      rw [List.filter_cons, if_pos hkeep, List.find?_cons_of_pos _ (by simp [hw]),
        List.find?_cons_of_pos _ (by simp [hw])]
    · rw [List.filter_cons]
      by_cases hg : w.id ∈ g
      · rw [if_pos (decide_eq_true hg), List.find?_cons_of_neg _ (by simp [hw]),
          List.find?_cons_of_neg _ (by simp [hw]), ih]
      · rw [if_neg (by simp [hg]), List.find?_cons_of_neg _ (by simp [hw]), ih]

theorem rawLpApr_filter (farm : SingleFarmResponse) (W : List SingleFarmResponse)
    (g : List String) (hf : farm.id ∈ g) :
    rawLpApr farm (W.filter (fun p => decide (p.id ∈ g))) = rawLpApr farm W := by
  rw [rawLpApr, rawLpApr, find?_filter_mem W g farm.id hf]

theorem filtered_aprs_lookup (db : PairDb) (g : List String) (s : String)
    (hndL : (db.latest.map (fun p => p.id)).Nodup) :
    aprsFromResponse
        ⟨db.latest.filter (fun p => decide (p.id ∈ g)),
         db.weekAgo.filter (fun p => decide (p.id ∈ g))⟩ s
      = if s ∈ g then aprAt db s else none := by
  rw [aprsFromResponse]
  rw [foldl_insertApr_lookup (fun farm => farm.id)
    (fun farm => BigNum.decimalPlaces 2
      (rawLpApr farm (db.weekAgo.filter (fun p => decide (p.id ∈ g)))))
    _ _ _ ((List.Sublist.map _ (List.filter_sublist db.latest)).nodup hndL)]
  by_cases hs : s ∈ g
  · rw [if_pos hs, aprAt, find?_filter_mem db.latest g s hs]
    cases hfind : db.latest.find? (fun p => p.id == s) with
    | none => rfl
    | some farm =>
      have hid : farm.id = s := by
        have := List.find?_some hfind
        simpa using this
      simp only [Option.map_some']
      rw [rawLpApr_filter farm db.weekAgo g (hid ▸ hs)]
  · rw [if_neg hs]
    have hnone : (db.latest.filter (fun p => decide (p.id ∈ g))).find?
        (fun x => x.id == s) = none := by
      rw [List.find?_eq_none]
      intro x hx
      rw [List.mem_filter] at hx
      simp only [beq_iff_eq]
      intro hxs
      exact hs (hxs ▸ of_decide_eq_true hx.2)
    rw [hnone]
    rfl

theorem getAprsForFarmGroup_lookup (db : PairDb) (g : List String) (s : String)
    (hndL : (db.latest.map (fun p => p.id)).Nodup)
    (hndW : (db.weekAgo.map (fun p => p.id)).Nodup) (hlen : g.length ≤ 30) :
    getAprsForFarmGroup db g s = if s ∈ g then aprAt db s else none := by
  rw [getAprsForFarmGroup, pairsQuery_eq_filter db.latest g hndL hlen,
    pairsQuery_eq_filter db.weekAgo g hndW hlen]
  exact filtered_aprs_lookup db g s hndL

theorem getAprsForFarmsUnbounded_lookup (db : PairDb) (addresses : List String) (s : String)
    (hndL : (db.latest.map (fun p => p.id)).Nodup) :
    getAprsForFarmsUnbounded db addresses s = if s ∈ addresses then aprAt db s else none := by
  rw [getAprsForFarmsUnbounded]
  exact filtered_aprs_lookup db addresses s hndL

theorem chunk30_flatten {α : Type} : ∀ l : List α, (chunk30 l).flatten = l
  | [] => by rw [chunk30]; rfl
  | x :: rest => by
    rw [chunk30, List.flatten_cons, chunk30_flatten ((x :: rest).drop 30)]
    exact List.take_append_drop 30 (x :: rest)
termination_by l => l.length
decreasing_by
  simp only [List.length_drop, List.length_cons]
  omega

theorem chunk30_length_le {α : Type} : ∀ l : List α, ∀ g ∈ chunk30 l, g.length ≤ 30
  | [] => by rw [chunk30]; intro g hg; cases hg
  | x :: rest => by
    rw [chunk30]
    intro g hg
    rcases List.mem_cons.mp hg with rfl | hg2
    · exact List.length_take_le 30 (x :: rest)
    · exact chunk30_length_le ((x :: rest).drop 30) g hg2
termination_by l => l.length
decreasing_by
  simp only [List.length_drop, List.length_cons]
  omega

theorem foldl_merge_groups (db : PairDb) (groups : List (List String)) (m0 : AprMap)
    (s : String)
    (hndL : (db.latest.map (fun p => p.id)).Nodup)
    (hndW : (db.weekAgo.map (fun p => p.id)).Nodup)
    (hlen : ∀ g ∈ groups, g.length ≤ 30) :
    (groups.foldl (fun allAprs g => mergeAprMap allAprs (getAprsForFarmGroup db g)) m0) s
      = if ∃ g ∈ groups, s ∈ g then
          (match aprAt db s with
           | some v => some v
           | none => m0 s)
        else m0 s := by
  induction groups generalizing m0 with
  | nil =>
    rw [List.foldl_nil, if_neg]
    rintro ⟨g, hg, -⟩
    cases hg
  | cons g gs ih =>
    have hgmap := getAprsForFarmGroup_lookup db g s hndL hndW (hlen g (List.mem_cons_self g gs))
    have hms : (mergeAprMap m0 (getAprsForFarmGroup db g)) s
        = match (if s ∈ g then aprAt db s else none) with
          | some v => some v
          | none => m0 s := by
      simp only [mergeAprMap, hgmap]
    rw [List.foldl_cons, ih _ (fun x hx => hlen x (List.mem_cons_of_mem g hx))]
    by_cases hg1 : s ∈ g
    · have hex : ∃ x ∈ g :: gs, s ∈ x := ⟨g, List.mem_cons_self g gs, hg1⟩
      rw [if_pos hex]
      cases haprAt : aprAt db s with
      | some v =>
        have hv : (mergeAprMap m0 (getAprsForFarmGroup db g)) s = some v := by
          rw [hms, if_pos hg1, haprAt]
        by_cases hgs : ∃ x ∈ gs, s ∈ x
        · rw [if_pos hgs]
        · rw [if_neg hgs, hv]
      | none =>
        have hv : (mergeAprMap m0 (getAprsForFarmGroup db g)) s = m0 s := by
          rw [hms, if_pos hg1, haprAt]
        by_cases hgs : ∃ x ∈ gs, s ∈ x
        · rw [if_pos hgs]
          exact hv
        · rw [if_neg hgs, hv]
    · have hv : (mergeAprMap m0 (getAprsForFarmGroup db g)) s = m0 s := by
        rw [hms, if_neg hg1]
      by_cases hgs : ∃ x ∈ gs, s ∈ x
      · have hex : ∃ x ∈ g :: gs, s ∈ x := by
          obtain ⟨x, hx, hsx⟩ := hgs
          exact ⟨x, List.mem_cons_of_mem g hx, hsx⟩
        rw [if_pos hgs, if_pos hex, hv]
      · have hnex : ¬ ∃ x ∈ g :: gs, s ∈ x := by
          rintro ⟨x, hx, hsx⟩
          rcases List.mem_cons.mp hx with rfl | hx2
          · exact hg1 hsx
          · exact hgs ⟨x, hx2, hsx⟩
        rw [if_neg hgs, if_neg hnex, hv]

theorem getAprsForFarmGroup_entry (db : PairDb) (addresses : List String)
    (farm : SingleFarmResponse)
    (hndL : (db.latest.map (fun p => p.id)).Nodup)
    (hndW : (db.weekAgo.map (fun p => p.id)).Nodup)
    (hlen : addresses.length ≤ 30)
    (hmem : farm ∈ db.latest) (haddr : farm.id ∈ addresses) :
    getAprsForFarmGroup db addresses farm.id
      = some (BigNum.decimalPlaces 2 (rawLpApr farm db.weekAgo)) := by
  rw [getAprsForFarmGroup_lookup db addresses farm.id hndL hndW hlen, if_pos haddr, aprAt,
    find?_key_eq_of_mem_nodup (fun p => p.id) db.latest farm hndL hmem]
  rfl

theorem BigNum.decimalPlaces_fin (dp : ℕ) (a : ℚ) :
    BigNum.decimalPlaces dp (.fin a) = .fin (roundDp dp a) := rfl

theorem rawLpApr_of_none (farm : SingleFarmResponse) (W : List SingleFarmResponse)
    (hfw : W.find? (fun oldFarm => oldFarm.id == farm.id) = none) :
    rawLpApr farm W = .fin 0 := by
  unfold rawLpApr
  rw [hfw]

theorem rawLpApr_of_found (farm fw : SingleFarmResponse) (W : List SingleFarmResponse)
    (hfw : W.find? (fun oldFarm => oldFarm.id == farm.id) = some fw) :
    rawLpApr farm W =
      if 0 < (farm.volumeUSD - fw.volumeUSD) * LP_HOLDERS_FEE * WEEKS_IN_A_YEAR then
        BigNum.div (.fin ((farm.volumeUSD - fw.volumeUSD) * LP_HOLDERS_FEE * WEEKS_IN_A_YEAR * 100))
          (.fin farm.reserveUSD)
      else .fin 0 := by
  unfold rawLpApr
  rw [hfw]

/-- C3: splitting a list of normal-farm addresses into consecutive groups of
at most 30 (as `fetchAndUpdateLPsAPR` does with `chunk(lowerCaseAddresses, 30)`),
calling `getAprsForFarmGroup` on each group in order and merging the results
with later entries overriding earlier ones, yields the same `AprMap` as one
unbounded query over all the addresses against the same snapshot data. -/
theorem chunked_groups_eq_unbounded (db : PairDb) (addresses : List String)
    (groups : List (List String))
    (hjoin : groups.flatten = addresses)
    (hlen : ∀ g ∈ groups, g.length ≤ 30)
    (hndL : (db.latest.map (fun p => p.id)).Nodup)
    (hndW : (db.weekAgo.map (fun p => p.id)).Nodup) :
    ∀ s, (groups.foldl (fun allAprs g => mergeAprMap allAprs (getAprsForFarmGroup db g))
        emptyAprMap) s
      = getAprsForFarmsUnbounded db addresses s := by
  intro s
  rw [foldl_merge_groups db groups emptyAprMap s hndL hndW hlen,
    getAprsForFarmsUnbounded_lookup db addresses s hndL]
  by_cases hs : s ∈ addresses
  · have hex : ∃ g ∈ groups, s ∈ g := by
      rw [← hjoin] at hs
      exact List.mem_flatten.mp hs
    rw [if_pos hex, if_pos hs]
    cases aprAt db s <;> rfl
  · have hnex : ¬ ∃ g ∈ groups, s ∈ g := by
      rintro ⟨g, hg, hsg⟩
      exact hs (hjoin ▸ List.mem_flatten.mpr ⟨g, hg, hsg⟩)
    rw [if_neg hnex, if_neg hs]
    rfl

theorem chunked_groups_eq_unbounded_witness :
    ((([["a"], ["b"]] : List (List String)).flatten = ["a", "b"])
      ∧ (∀ g ∈ ([["a"], ["b"]] : List (List String)), g.length ≤ 30))
    ∧ ∀ s, (([["a"], ["b"]] : List (List String)).foldl
        (fun allAprs g => mergeAprMap allAprs
          (getAprsForFarmGroup ⟨[⟨"a", 100, 7⟩, ⟨"b", 50, 3⟩], [⟨"a", 90, 2⟩]⟩ g))
        emptyAprMap) s
      = getAprsForFarmsUnbounded ⟨[⟨"a", 100, 7⟩, ⟨"b", 50, 3⟩], [⟨"a", 90, 2⟩]⟩ ["a", "b"] s :=
  ⟨⟨rfl, by decide⟩,
    chunked_groups_eq_unbounded ⟨[⟨"a", 100, 7⟩, ⟨"b", 50, 3⟩], [⟨"a", 90, 2⟩]⟩ ["a", "b"]
      [["a"], ["b"]] rfl (by decide) (by decide) (by decide)⟩

/-- C9: the key set of the object returned by `getAprsForFarmGroup` is
exactly the set of ids returned in the latest-block snapshot; a requested
address absent from the latest-block snapshot gets no entry at all (it is
omitted, not assigned 0). -/
theorem getAprsForFarmGroup_key_set (db : PairDb) (addresses : List String) (s : String) :
    (getAprsForFarmGroup db addresses s ≠ none
      ↔ s ∈ (pairsQuery db.latest addresses).map (fun p => p.id))
    ∧ (s ∉ db.latest.map (fun p => p.id) → getAprsForFarmGroup db addresses s = none) := by
  have hiff : getAprsForFarmGroup db addresses s ≠ none
      ↔ s ∈ (pairsQuery db.latest addresses).map (fun p => p.id) := by
    rw [getAprsForFarmGroup, aprsFromResponse,
      foldl_insertApr_ne_none (fun farm => farm.id)
        (fun farm => BigNum.decimalPlaces 2 (rawLpApr farm (pairsQuery db.weekAgo addresses)))]
    constructor
    · rintro (⟨x, hx, rfl⟩ | hfalse)
      · exact List.mem_map_of_mem _ hx
      · exact absurd rfl hfalse
    · intro hm
      obtain ⟨x, hx, hxs⟩ := List.mem_map.mp hm
      exact Or.inl ⟨x, hx, hxs⟩
  refine ⟨hiff, fun hs => ?_⟩
  by_contra hne
  obtain ⟨x, hx, hxs⟩ := List.mem_map.mp (hiff.mp hne)
  rw [pairsQuery] at hx
  have hx1 : x ∈ db.latest.filter (fun p => decide (p.id ∈ addresses)) :=
    (List.take_sublist 30 _).subset hx
  have hx2 : x ∈ db.latest := (List.filter_sublist _).subset hx1
  exact hs (hxs ▸ List.mem_map_of_mem _ hx2)

theorem getAprsForFarmGroup_key_set_witness :
    ((getAprsForFarmGroup ⟨[⟨"a", 1, 1⟩], []⟩ ["a", "b"] "a" ≠ none
      ↔ "a" ∈ (pairsQuery [⟨"a", 1, 1⟩] ["a", "b"]).map (fun p => p.id))
    ∧ ("a" ∉ ([⟨"a", 1, 1⟩] : List SingleFarmResponse).map (fun p => p.id)
        → getAprsForFarmGroup ⟨[⟨"a", 1, 1⟩], []⟩ ["a", "b"] "a" = none))
    ∧ ((getAprsForFarmGroup ⟨[⟨"a", 1, 1⟩], []⟩ ["a", "b"] "b" ≠ none
      ↔ "b" ∈ (pairsQuery [⟨"a", 1, 1⟩] ["a", "b"]).map (fun p => p.id))
    ∧ ("b" ∉ ([⟨"a", 1, 1⟩] : List SingleFarmResponse).map (fun p => p.id)
        → getAprsForFarmGroup ⟨[⟨"a", 1, 1⟩], []⟩ ["a", "b"] "b" = none)) :=
  ⟨getAprsForFarmGroup_key_set ⟨[⟨"a", 1, 1⟩], []⟩ ["a", "b"] "a",
   getAprsForFarmGroup_key_set ⟨[⟨"a", 1, 1⟩], []⟩ ["a", "b"] "b"⟩

/-- C2: a farm returned in the latest snapshot that is absent from the
one-week-ago snapshot, or whose computed annualized fees
(7-day volume delta times `0.0025` times `52.1429`) are zero or negative, is
mapped by `getAprsForFarmGroup` to APR exactly `0` - assigned, not
omitted. -/
theorem getAprsForFarmGroup_zero_cases (db : PairDb) (addresses : List String)
    (farm : SingleFarmResponse)
    (hndL : (db.latest.map (fun p => p.id)).Nodup)
    (hndW : (db.weekAgo.map (fun p => p.id)).Nodup)
    (hlen : addresses.length ≤ 30)
    (hmem : farm ∈ db.latest) (haddr : farm.id ∈ addresses)
    (h : (∀ fw ∈ db.weekAgo, fw.id ≠ farm.id)
      ∨ ∃ fw, db.weekAgo.find? (fun oldFarm => oldFarm.id == farm.id) = some fw
          ∧ (farm.volumeUSD - fw.volumeUSD) * LP_HOLDERS_FEE * WEEKS_IN_A_YEAR ≤ 0) :
    getAprsForFarmGroup db addresses farm.id = some (.fin 0) := by
  rw [getAprsForFarmGroup_entry db addresses farm hndL hndW hlen hmem haddr]
  rcases h with habs | ⟨fw, hfw, hle⟩
  · rw [rawLpApr_of_none farm db.weekAgo
      (List.find?_eq_none.mpr (fun x hx hbeq => habs x hx (by simpa using hbeq))),
      BigNum.decimalPlaces_fin, roundDp_zero]
  · rw [rawLpApr_of_found farm fw db.weekAgo hfw, if_neg (not_lt.mpr hle),
      BigNum.decimalPlaces_fin, roundDp_zero]

theorem getAprsForFarmGroup_zero_cases_witness :
    ((∀ fw ∈ ([] : List SingleFarmResponse), fw.id ≠ "a")
      ∧ getAprsForFarmGroup ⟨[⟨"a", 100, 7⟩], []⟩ ["a"] "a" = some (.fin 0))
    ∧ (((5 : ℚ) - 9) * LP_HOLDERS_FEE * WEEKS_IN_A_YEAR ≤ 0
      ∧ getAprsForFarmGroup ⟨[⟨"b", 100, 5⟩], [⟨"b", 80, 9⟩]⟩ ["b"] "b" = some (.fin 0)) :=
  ⟨⟨fun fw hfw => absurd hfw (List.not_mem_nil fw),
    getAprsForFarmGroup_zero_cases ⟨[⟨"a", 100, 7⟩], []⟩ ["a"] ⟨"a", 100, 7⟩
      (by decide) (by decide) (by decide) (List.mem_cons_self _ _) (by decide)
      (Or.inl (fun fw hfw => absurd hfw (List.not_mem_nil fw)))⟩,
   ⟨by norm_num [LP_HOLDERS_FEE, WEEKS_IN_A_YEAR],
    getAprsForFarmGroup_zero_cases ⟨[⟨"b", 100, 5⟩], [⟨"b", 80, 9⟩]⟩ ["b"] ⟨"b", 100, 5⟩
      (by decide) (by decide) (by decide) (List.mem_cons_self _ _) (by decide)
      (Or.inr ⟨⟨"b", 80, 9⟩, rfl, by norm_num [LP_HOLDERS_FEE, WEEKS_IN_A_YEAR]⟩)⟩⟩

theorem aprEntry_pos (db : PairDb) (addresses : List String)
    (i : String) (res vol : ℚ) (fw : SingleFarmResponse)
    (hndL : (db.latest.map (fun p => p.id)).Nodup)
    (hndW : (db.weekAgo.map (fun p => p.id)).Nodup)
    (hlen : addresses.length ≤ 30)
    (hmem : (⟨i, res, vol⟩ : SingleFarmResponse) ∈ db.latest) (haddr : i ∈ addresses)
    (hfw : db.weekAgo.find? (fun oldFarm => oldFarm.id == i) = some fw)
    (hpos : 0 < (vol - fw.volumeUSD) * LP_HOLDERS_FEE * WEEKS_IN_A_YEAR)
    (hres : res ≠ 0) :
    getAprsForFarmGroup db addresses i
      = some (.fin (roundDp 2 (roundDp 20
          ((vol - fw.volumeUSD) * LP_HOLDERS_FEE * WEEKS_IN_A_YEAR * 100 / res)))) := by
  have hentry : getAprsForFarmGroup db addresses i
      = some (BigNum.decimalPlaces 2 (rawLpApr ⟨i, res, vol⟩ db.weekAgo)) :=
    getAprsForFarmGroup_entry db addresses ⟨i, res, vol⟩ hndL hndW hlen hmem haddr
  rw [rawLpApr_of_found ⟨i, res, vol⟩ fw db.weekAgo hfw, if_pos hpos,
    BigNum.div_fin_of_ne _ _ hres, BigNum.decimalPlaces_fin] at hentry
  exact hentry

/-- C1 (amended): for a farm returned in both snapshots whose annualized
fees are positive (and whose latest reserve is nonzero, so the division is
finite), `getAprsForFarmGroup` maps its address to
`(volumeUSD_latest - volumeUSD_weekAgo) * 0.0025 * 52.1429 * 100 / reserveUSD_latest`
computed in the decimal library's arithmetic: the division is rounded to 20
decimal places (the library's default division precision, round-half-up) and
the result is then rounded to 2 decimal places round-half-up.  The original
claim - a single 2-decimal half-up rounding of the exact quotient - fails,
see the counterexample. -/
theorem getAprsForFarmGroup_pos_fees_apr (db : PairDb) (addresses : List String)
    (i : String) (res vol : ℚ) (fw : SingleFarmResponse)
    (hndL : (db.latest.map (fun p => p.id)).Nodup)
    (hndW : (db.weekAgo.map (fun p => p.id)).Nodup)
    (hlen : addresses.length ≤ 30)
    (hmem : (⟨i, res, vol⟩ : SingleFarmResponse) ∈ db.latest) (haddr : i ∈ addresses)
    (hfw : db.weekAgo.find? (fun oldFarm => oldFarm.id == i) = some fw)
    (hpos : 0 < (vol - fw.volumeUSD) * LP_HOLDERS_FEE * WEEKS_IN_A_YEAR)
    (hres : res ≠ 0) :
    getAprsForFarmGroup db addresses i
      = some (.fin (roundDp 2 (roundDp 20
          ((vol - fw.volumeUSD) * LP_HOLDERS_FEE * WEEKS_IN_A_YEAR * 100 / res)))) :=
  aprEntry_pos db addresses i res vol fw hndL hndW hlen hmem haddr hfw hpos hres

theorem getAprsForFarmGroup_pos_fees_apr_witness :
    (0 < ((10 : ℚ) - 3) * LP_HOLDERS_FEE * WEEKS_IN_A_YEAR ∧ (100 : ℚ) ≠ 0)
    ∧ getAprsForFarmGroup ⟨[⟨"a", 100, 10⟩], [⟨"a", 90, 3⟩]⟩ ["a"] "a"
      = some (.fin (roundDp 2 (roundDp 20
          (((10 : ℚ) - 3) * LP_HOLDERS_FEE * WEEKS_IN_A_YEAR * 100 / 100)))) :=
  ⟨⟨by norm_num [LP_HOLDERS_FEE, WEEKS_IN_A_YEAR], by norm_num⟩,
    getAprsForFarmGroup_pos_fees_apr ⟨[⟨"a", 100, 10⟩], [⟨"a", 90, 3⟩]⟩ ["a"] "a" 100 10
      ⟨"a", 90, 3⟩ (by decide) (by decide) (by decide) (List.mem_cons_self _ _) (by decide)
      (List.find?_cons_of_pos _ (by simp))
      (by norm_num [LP_HOLDERS_FEE, WEEKS_IN_A_YEAR]) (by norm_num)⟩

/-- C1 counterexample: with week-ago volume 0, latest volume
0.0049999999999999999995 (22 decimal places) and latest reserve 13.035725,
the stored APR is 0.01 - the library's division first rounds the quotient
0.0049999999999999999995 to 20 decimal places, giving 0.005, which rounds
half-up to 0.01 - while the claimed single 2-decimal half-up rounding of the
exact decimal expression gives 0. -/
theorem apr_exact_two_decimal_cex :
    getAprsForFarmGroup
        ⟨[⟨"a", 13035725 / 1000000, 49999999999999999995 / 10000000000000000000000⟩],
         [⟨"a", 1, 0⟩]⟩ ["a"] "a"
      ≠ some (.fin (roundDp 2
          (((49999999999999999995 : ℚ) / 10000000000000000000000 - 0)
            * LP_HOLDERS_FEE * WEEKS_IN_A_YEAR * 100 / (13035725 / 1000000)))) := by
  have hval : getAprsForFarmGroup
      ⟨[⟨"a", 13035725 / 1000000, 49999999999999999995 / 10000000000000000000000⟩],
       [⟨"a", 1, 0⟩]⟩ ["a"] "a"
      = some (.fin (roundDp 2 (roundDp 20
          (((49999999999999999995 : ℚ) / 10000000000000000000000 - 0)
            * LP_HOLDERS_FEE * WEEKS_IN_A_YEAR * 100 / (13035725 / 1000000))))) := by
    have h := aprEntry_pos
      ⟨[⟨"a", 13035725 / 1000000, 49999999999999999995 / 10000000000000000000000⟩],
       [⟨"a", 1, 0⟩]⟩ ["a"] "a" (13035725 / 1000000) (49999999999999999995 / 10000000000000000000000)
      ⟨"a", 1, 0⟩ (by decide) (by decide) (by decide) (List.mem_cons_self _ _) (by decide)
      (List.find?_cons_of_pos _ (by simp))
      (by norm_num [LP_HOLDERS_FEE, WEEKS_IN_A_YEAR]) (by norm_num)
    exact h
  rw [hval]
  have h20 : roundDp 20
      (((49999999999999999995 : ℚ) / 10000000000000000000000 - 0)
        * LP_HOLDERS_FEE * WEEKS_IN_A_YEAR * 100 / (13035725 / 1000000)) = 1 / 200 := by
    apply roundDp_eval 20 _ _ 500000000000000000
    · apply roundHalfUp_eval <;>
        rw [qpow_eq_pow] <;> norm_num [LP_HOLDERS_FEE, WEEKS_IN_A_YEAR]
    · rw [qpow_eq_pow]
      norm_num
  have h2a : roundDp 2 ((1 : ℚ) / 200) = 1 / 100 := by
    apply roundDp_eval 2 _ _ 1
    · apply roundHalfUp_eval <;> rw [qpow_eq_pow] <;> norm_num
    · rw [qpow_eq_pow]
      norm_num
  have h2b : roundDp 2
      (((49999999999999999995 : ℚ) / 10000000000000000000000 - 0)
        * LP_HOLDERS_FEE * WEEKS_IN_A_YEAR * 100 / (13035725 / 1000000)) = 0 := by
    apply roundDp_eval 2 _ _ 0
    · apply roundHalfUp_eval <;>
        rw [qpow_eq_pow] <;> norm_num [LP_HOLDERS_FEE, WEEKS_IN_A_YEAR]
    · rw [qpow_eq_pow]
      norm_num
  rw [h20, h2a, h2b]
  simp only [ne_eq, Option.some.injEq, BigNum.fin_injEq]
  norm_num

theorem getAprsForStableFarm_ok (blockDayAgo : Except BlockFetchError ℕ)
    (query : ℕ → Except Unit StableQueryResult) (b : ℕ) (r : StableQueryResult) (vL vD : ℚ)
    (hb : blockDayAgo = .ok b) (hq : query b = .ok r)
    (hL : r.virtualPriceAtLatestBlock = some vL) (hD : r.virtualPriceOneDayAgo = some vD)
    (hvD : vD ≠ 0) :
    getAprsForStableFarm blockDayAgo query
      = (.fin (qpow (roundDp 20 (vL / vD)) 365 - 1), false) := by
  subst hb
  simp only [getAprsForStableFarm, hq, hL, hD, BigNum.ofOption]
  rw [BigNum.div_fin_of_ne _ _ hvD]
  rfl

theorem buildStableAprsMap_map_eq (S : List FarmConfig) (h : FarmConfig → BigNum) :
    buildStableAprsMap S (S.map h)
      = S.foldl (fun result f => insertApr result f.lpAddress (BigNum.decimalPlaces 5 (h f)))
          emptyAprMap := by
  rw [buildStableAprsMap]
  suffices haux : ∀ (T : List FarmConfig) (m0 : AprMap),
      ((T.zip (T.map h)).foldl
        (fun result p => insertApr result p.1.lpAddress (BigNum.decimalPlaces 5 p.2)) m0)
      = T.foldl (fun result f => insertApr result f.lpAddress (BigNum.decimalPlaces 5 (h f))) m0 by
    exact haux S emptyAprMap
  intro T
  induction T with
  | nil => intro m0; rfl
  | cons a T ih =>
    intro m0
    rw [List.map_cons, List.zip_cons_cons, List.foldl_cons, List.foldl_cons, ih]

theorem buildStableAprsMap_lookup (S : List FarmConfig) (h : FarmConfig → BigNum)
    (f : FarmConfig) (hnd : (S.map (fun g => g.lpAddress)).Nodup) (hmem : f ∈ S) :
    buildStableAprsMap S (S.map h) f.lpAddress = some (BigNum.decimalPlaces 5 (h f)) := by
  rw [buildStableAprsMap_map_eq S h,
    foldl_insertApr_lookup (fun g => g.lpAddress) (fun g => BigNum.decimalPlaces 5 (h g))
      S emptyAprMap f.lpAddress hnd,
    find?_key_eq_of_mem_nodup (fun g => g.lpAddress) S f hnd hmem]

theorem buildStableAprsMap_ne_none (S : List FarmConfig) (h : FarmConfig → BigNum) (s : String) :
    buildStableAprsMap S (S.map h) s ≠ none ↔ s ∈ S.map (fun g => g.lpAddress) := by
  rw [buildStableAprsMap_map_eq S h,
    foldl_insertApr_ne_none (fun g => g.lpAddress) (fun g => BigNum.decimalPlaces 5 (h g))]
  constructor
  · rintro (⟨x, hx, rfl⟩ | hfalse)
    · exact List.mem_map_of_mem _ hx
    · exact absurd rfl hfalse
  · intro hm
    obtain ⟨x, hx, hxs⟩ := List.mem_map.mp hm
    exact Or.inl ⟨x, hx, hxs⟩

/-- C4 (amended): when the day-ago block resolves and the stable-swap query
succeeds with both virtual prices present (day-ago price nonzero),
`getAprsForStableFarm` returns
`((virtualPrice_latest / virtualPrice_dayAgo rounded to 20 decimal places,
the decimal library's division precision) ^ 365) - 1`, and the caller stores
that value rounded to 5 decimal places under the farm's configured
`lpAddress`.  The original claim - the exact quotient with no intermediate
rounding - fails, see the counterexample. -/
theorem stable_apr_formula (blockDayAgo : Except BlockFetchError ℕ)
    (queryOf : FarmConfig → ℕ → Except Unit StableQueryResult)
    (S : List FarmConfig) (f : FarmConfig) (b : ℕ) (r : StableQueryResult) (vL vD : ℚ)
    (hb : blockDayAgo = .ok b) (hq : queryOf f b = .ok r)
    (hL : r.virtualPriceAtLatestBlock = some vL) (hD : r.virtualPriceOneDayAgo = some vD)
    (hvD : vD ≠ 0) (hmem : f ∈ S) (hnd : (S.map (fun g => g.lpAddress)).Nodup) :
    (getAprsForStableFarm blockDayAgo (queryOf f)).1
      = .fin (qpow (roundDp 20 (vL / vD)) 365 - 1)
    ∧ buildStableAprsMap S
        (S.map (fun g => (getAprsForStableFarm blockDayAgo (queryOf g)).1)) f.lpAddress
      = some (.fin (roundDp 5 (qpow (roundDp 20 (vL / vD)) 365 - 1))) := by
  have hok := getAprsForStableFarm_ok blockDayAgo (queryOf f) b r vL vD hb hq hL hD hvD
  refine ⟨by rw [hok], ?_⟩
  rw [buildStableAprsMap_lookup S _ f hnd hmem]
  rw [hok]
  rfl

theorem stable_apr_formula_witness :
    ((101 : ℚ) / 100 ≠ 0
      ∧ (⟨some 1, "0xStable", some "0xswap"⟩ : FarmConfig) ∈
          [(⟨some 1, "0xStable", some "0xswap"⟩ : FarmConfig)])
    ∧ (getAprsForStableFarm (.ok 5) ((fun _ _ => .ok ⟨some (51 / 50), some (101 / 100)⟩ :
          FarmConfig → ℕ → Except Unit StableQueryResult)
            ⟨some 1, "0xStable", some "0xswap"⟩)).1
      = .fin (qpow (roundDp 20 ((51 : ℚ) / 50 / (101 / 100))) 365 - 1)
    ∧ buildStableAprsMap [(⟨some 1, "0xStable", some "0xswap"⟩ : FarmConfig)]
        ([(⟨some 1, "0xStable", some "0xswap"⟩ : FarmConfig)].map
          (fun g => (getAprsForStableFarm (.ok 5) ((fun _ _ => .ok ⟨some (51 / 50), some (101 / 100)⟩ :
            FarmConfig → ℕ → Except Unit StableQueryResult) g)).1)) "0xStable"
      = some (.fin (roundDp 5 (qpow (roundDp 20 ((51 : ℚ) / 50 / (101 / 100))) 365 - 1))) := by
  have h := stable_apr_formula (.ok 5)
    (fun _ _ => .ok ⟨some (51 / 50), some (101 / 100)⟩)
    [⟨some 1, "0xStable", some "0xswap"⟩] ⟨some 1, "0xStable", some "0xswap"⟩ 5
    ⟨some (51 / 50), some (101 / 100)⟩ (51 / 50) (101 / 100)
    rfl rfl rfl rfl (by norm_num) (List.mem_cons_self _ _) (by decide)
  exact ⟨⟨by norm_num, List.mem_cons_self _ _⟩, h.1, h.2⟩

/-- C4 counterexample: with latest virtual price 1.02 and day-ago price
1.01, the value `getAprsForStableFarm` returns is
`((1.02/1.01 rounded to 20 decimal places) ^ 365) - 1`, strictly below the
claimed exact `(1.02/1.01) ^ 365 - 1`: the library's division rounds the
infinite decimal 1.00990099... before exponentiation. -/
theorem stable_apr_exact_cex :
    (getAprsForStableFarm (.ok 1)
        (fun _ => .ok ⟨some (51 / 50), some (101 / 100)⟩)).1
      ≠ .fin (qpow ((51 : ℚ) / 50 / (101 / 100)) 365 - 1) := by
  rw [getAprsForStableFarm_ok (.ok 1) _ 1 ⟨some (51 / 50), some (101 / 100)⟩
    (51 / 50) (101 / 100) rfl rfl rfl rfl (by norm_num)]
  simp only [ne_eq, BigNum.fin_injEq]
  have hd20 : roundDp 20 ((51 : ℚ) / 50 / (101 / 100))
      = 100990099009900990099 / 100000000000000000000 := by
    apply roundDp_eval 20 _ _ 100990099009900990099
    · apply roundHalfUp_eval <;> rw [qpow_eq_pow] <;> norm_num
    · rw [qpow_eq_pow]
      norm_num
  rw [hd20, qpow_eq_pow, qpow_eq_pow]
  intro hcontra
  have heq : ((100990099009900990099 : ℚ) / 100000000000000000000) ^ 365
      = ((51 : ℚ) / 50 / (101 / 100)) ^ 365 := sub_left_inj.mp hcontra
  have hlt : ((100990099009900990099 : ℚ) / 100000000000000000000) ^ 365
      < ((51 : ℚ) / 50 / (101 / 100)) ^ 365 := by
    apply pow_lt_pow_left₀ (by norm_num) (by norm_num)
    norm_num
  exact absurd heq (ne_of_lt hlt)

/-- C5 (amended): a thrown failure - day-ago block resolution error or
stable-swap request error - is caught by `getAprsForStableFarm`, which logs
it (`console.error`) and returns exactly `0`; but virtual-price data missing
from a successful response is not a thrown error: the computation silently
yields `BigNumber` `NaN` (not `0`) and logs nothing.  The original claim
that every failure, missing data included, logs and returns `0` fails, see
the counterexample. -/
theorem getAprsForStableFarm_failure (blockDayAgo : Except BlockFetchError ℕ)
    (query : ℕ → Except Unit StableQueryResult) :
    (∀ e, blockDayAgo = .error e → getAprsForStableFarm blockDayAgo query = (.fin 0, true))
    ∧ (∀ b, blockDayAgo = .ok b → query b = .error () →
        getAprsForStableFarm blockDayAgo query = (.fin 0, true))
    ∧ (∀ b r, blockDayAgo = .ok b → query b = .ok r →
        (r.virtualPriceAtLatestBlock = none ∨ r.virtualPriceOneDayAgo = none) →
        getAprsForStableFarm blockDayAgo query = (BigNum.nan, false)) := by
  refine ⟨?_, ?_, ?_⟩
  · rintro e rfl
    rfl
  · rintro b rfl herr
    simp only [getAprsForStableFarm, herr]
  · rintro b r rfl hok hmiss
    rcases hmiss with hm | hm
    · cases hvd : r.virtualPriceOneDayAgo <;>
        simp only [getAprsForStableFarm, hok, hm, hvd, BigNum.ofOption] <;> rfl
    · cases hvl : r.virtualPriceAtLatestBlock <;>
        simp only [getAprsForStableFarm, hok, hm, hvl, BigNum.ofOption] <;> rfl

theorem getAprsForStableFarm_failure_witness :
    ((Except.error ⟨42⟩ : Except BlockFetchError ℕ) = .error ⟨42⟩
      ∧ getAprsForStableFarm (.error ⟨42⟩)
          (fun _ => .ok ⟨some 1, some 1⟩) = (.fin 0, true))
    ∧ ((fun _ => (.error () : Except Unit StableQueryResult)) 3 = .error ()
      ∧ getAprsForStableFarm (.ok 3)
          (fun _ => (.error () : Except Unit StableQueryResult)) = (.fin 0, true)) :=
  ⟨⟨rfl, (getAprsForStableFarm_failure (.error ⟨42⟩) (fun _ => .ok ⟨some 1, some 1⟩)).1 ⟨42⟩ rfl⟩,
   ⟨rfl, (getAprsForStableFarm_failure (.ok 3)
      (fun _ => (.error () : Except Unit StableQueryResult))).2.1 3 rfl rfl⟩⟩

/-- C5 counterexample: a successful stable-swap response whose latest
virtual price is missing makes `getAprsForStableFarm` return `BigNumber`
`NaN` - not `0` - and log nothing: missing price data is not a thrown
error, so the catch block never runs. -/
theorem stable_missing_data_cex :
    (getAprsForStableFarm (.ok 100) (fun _ => .ok ⟨none, some 1⟩)).1 ≠ BigNum.fin 0
    ∧ (getAprsForStableFarm (.ok 100) (fun _ => .ok ⟨none, some 1⟩)).2 = false := by
  constructor
  · show BigNum.nan ≠ BigNum.fin 0
    intro h
    exact BigNum.noConfusion h
  · rfl

theorem splitFarms_foldl (l : List FarmConfig) (acc : SplitFarmResult) :
    l.foldl splitNormalAndStableFarmsReducer acc
      = ⟨acc.normalFarms ++ l.filter (fun f => !isStableFarm f),
         acc.stableFarms ++ l.filter (fun f => isStableFarm f)⟩ := by
  induction l generalizing acc with
  | nil => simp
  | cons a l ih =>
    rw [List.foldl_cons, ih]
    by_cases ha : isStableFarm a <;>
      simp [splitNormalAndStableFarmsReducer, ha, List.filter_cons]

/-- C6: folding `splitNormalAndStableFarmsReducer` over a farm-configuration
list partitions it: the two groups are exactly the order-preserving filters
of the input by the truthiness of `stableSwapAddress`, every input
occurrence lands in exactly one group (occurrence counts add up), and a farm
with a non-empty `stableSwapAddress` is always in `stableFarms` and never in
`normalFarms`, whatever its other fields. -/
theorem splitNormalAndStableFarmsReducer_partition (l : List FarmConfig) :
    ((l.foldl splitNormalAndStableFarmsReducer ⟨[], []⟩).normalFarms
        = l.filter (fun f => !isStableFarm f)
      ∧ (l.foldl splitNormalAndStableFarmsReducer ⟨[], []⟩).stableFarms
        = l.filter (fun f => isStableFarm f))
    ∧ (∀ f, (l.foldl splitNormalAndStableFarmsReducer ⟨[], []⟩).normalFarms.count f
        + (l.foldl splitNormalAndStableFarmsReducer ⟨[], []⟩).stableFarms.count f
        = l.count f)
    ∧ (∀ f ∈ l, ∀ s, f.stableSwapAddress = some s → s ≠ "" →
        f ∈ (l.foldl splitNormalAndStableFarmsReducer ⟨[], []⟩).stableFarms
        ∧ f ∉ (l.foldl splitNormalAndStableFarmsReducer ⟨[], []⟩).normalFarms) := by
  have hn : (l.foldl splitNormalAndStableFarmsReducer ⟨[], []⟩).normalFarms
      = l.filter (fun f => !isStableFarm f) := by
    rw [splitFarms_foldl]
    simp
  have hs : (l.foldl splitNormalAndStableFarmsReducer ⟨[], []⟩).stableFarms
      = l.filter (fun f => isStableFarm f) := by
    rw [splitFarms_foldl]
    simp
  refine ⟨⟨hn, hs⟩, ?_, ?_⟩
  · intro f
    rw [hn, hs]
    by_cases hf : isStableFarm f
    · have h1 : (l.filter (fun f => !isStableFarm f)).count f = 0 :=
        List.count_eq_zero.mpr (fun hmem => by
          have h2 := (List.mem_filter.mp hmem).2
          rw [hf] at h2
          exact Bool.noConfusion h2)
      have h2 : (l.filter (fun f => isStableFarm f)).count f = l.count f :=
        List.count_filter hf
      rw [h1, h2, zero_add]
    · have h1 : (l.filter (fun f => isStableFarm f)).count f = 0 :=
        List.count_eq_zero.mpr (fun hmem => hf (List.mem_filter.mp hmem).2)
      have h2 : (l.filter (fun f => !isStableFarm f)).count f = l.count f :=
        List.count_filter (by simp [hf])
      rw [h1, h2, add_zero]
  · intro f hf s haddr hne
    have hstable : isStableFarm f = true := by
      simp only [isStableFarm, haddr]
      exact bne_iff_ne.mpr hne
    refine ⟨?_, ?_⟩
    · rw [hs]
      exact List.mem_filter.mpr ⟨hf, hstable⟩
    · rw [hn]
      intro hmem
      have := (List.mem_filter.mp hmem).2
      simp [hstable] at this

theorem splitNormalAndStableFarmsReducer_partition_witness :
    ((([⟨some 1, "n1", none⟩, ⟨some 2, "s1", some "0xswap"⟩, ⟨none, "n2", some ""⟩]
        : List FarmConfig).foldl splitNormalAndStableFarmsReducer ⟨[], []⟩).normalFarms
        = ([⟨some 1, "n1", none⟩, ⟨some 2, "s1", some "0xswap"⟩, ⟨none, "n2", some ""⟩]
            : List FarmConfig).filter (fun f => !isStableFarm f)
      ∧ (([⟨some 1, "n1", none⟩, ⟨some 2, "s1", some "0xswap"⟩, ⟨none, "n2", some ""⟩]
        : List FarmConfig).foldl splitNormalAndStableFarmsReducer ⟨[], []⟩).stableFarms
        = ([⟨some 1, "n1", none⟩, ⟨some 2, "s1", some "0xswap"⟩, ⟨none, "n2", some ""⟩]
            : List FarmConfig).filter (fun f => isStableFarm f))
    ∧ (∀ f, (([⟨some 1, "n1", none⟩, ⟨some 2, "s1", some "0xswap"⟩, ⟨none, "n2", some ""⟩]
        : List FarmConfig).foldl splitNormalAndStableFarmsReducer ⟨[], []⟩).normalFarms.count f
        + (([⟨some 1, "n1", none⟩, ⟨some 2, "s1", some "0xswap"⟩, ⟨none, "n2", some ""⟩]
            : List FarmConfig).foldl splitNormalAndStableFarmsReducer ⟨[], []⟩).stableFarms.count f
        = ([⟨some 1, "n1", none⟩, ⟨some 2, "s1", some "0xswap"⟩, ⟨none, "n2", some ""⟩]
            : List FarmConfig).count f)
    ∧ (∀ f ∈ ([⟨some 1, "n1", none⟩, ⟨some 2, "s1", some "0xswap"⟩, ⟨none, "n2", some ""⟩]
        : List FarmConfig), ∀ s, f.stableSwapAddress = some s → s ≠ "" →
        f ∈ (([⟨some 1, "n1", none⟩, ⟨some 2, "s1", some "0xswap"⟩, ⟨none, "n2", some ""⟩]
            : List FarmConfig).foldl splitNormalAndStableFarmsReducer ⟨[], []⟩).stableFarms
        ∧ f ∉ (([⟨some 1, "n1", none⟩, ⟨some 2, "s1", some "0xswap"⟩, ⟨none, "n2", some ""⟩]
            : List FarmConfig).foldl splitNormalAndStableFarmsReducer ⟨[], []⟩).normalFarms) :=
  splitNormalAndStableFarmsReducer_partition
    [⟨some 1, "n1", none⟩, ⟨some 2, "s1", some "0xswap"⟩, ⟨none, "n2", some ""⟩]

theorem getBlockAtTimestamp_no_client (blockDb : List BlockEntry) (timestamp : ℤ) :
    getBlockAtTimestamp none blockDb timestamp = .error ⟨timestamp⟩ := rfl

theorem getBlockAtTimestamp_found (c : String) (blockDb : List BlockEntry) (timestamp : ℤ)
    (blk : BlockEntry)
    (hfind : blockDb.find? (fun b =>
        decide (timestamp < b.timestamp) && decide (b.timestamp < timestamp + 600)) = some blk) :
    getBlockAtTimestamp (some c) blockDb timestamp = .ok blk.number := by
  simp only [getBlockAtTimestamp, hfind]

theorem getBlockAtTimestamp_not_found (c : String) (blockDb : List BlockEntry) (timestamp : ℤ)
    (hfind : blockDb.find? (fun b =>
        decide (timestamp < b.timestamp) && decide (b.timestamp < timestamp + 600)) = none) :
    getBlockAtTimestamp (some c) blockDb timestamp = .error ⟨timestamp⟩ := by
  simp only [getBlockAtTimestamp, hfind]

/-- C7: `getBlockAtTimestamp` returns the number of a stored block whose
timestamp lies in the 600-second window after the requested timestamp
(`timestamp_gt t`, `timestamp_lt t + 600`), and it throws an error naming
the requested timestamp exactly when the chain has no configured
block-indexing endpoint or no stored block matches the window. -/
theorem getBlockAtTimestamp_spec (blockClient : Option String) (blockDb : List BlockEntry)
    (timestamp : ℤ) :
    (∀ n, getBlockAtTimestamp blockClient blockDb timestamp = .ok n →
        ∃ b ∈ blockDb, b.number = n ∧ timestamp < b.timestamp ∧ b.timestamp < timestamp + 600)
    ∧ ((∃ e, getBlockAtTimestamp blockClient blockDb timestamp = .error e)
        ↔ (blockClient = none
            ∨ ∀ b ∈ blockDb, ¬(timestamp < b.timestamp ∧ b.timestamp < timestamp + 600)))
    ∧ (∀ e, getBlockAtTimestamp blockClient blockDb timestamp = .error e
        → e.timestamp = timestamp) := by
  cases blockClient with
  | none =>
    rw [getBlockAtTimestamp_no_client]
    refine ⟨?_, ?_, ?_⟩
    · intro n h
      exact Except.noConfusion h
    · exact ⟨fun _ => Or.inl rfl, fun _ => ⟨⟨timestamp⟩, rfl⟩⟩
    · intro e h
      injection h with h
      rw [← h]
  | some c =>
    cases hfind : blockDb.find? (fun b =>
        decide (timestamp < b.timestamp) && decide (b.timestamp < timestamp + 600)) with
    | some blk =>
      rw [getBlockAtTimestamp_found c blockDb timestamp blk hfind]
      have hmem := List.mem_of_find?_eq_some hfind
      have hp := List.find?_some hfind
      simp only [Bool.and_eq_true, decide_eq_true_eq] at hp
      refine ⟨?_, ?_, ?_⟩
      · intro n h
        injection h with h
        exact ⟨blk, hmem, h, hp.1, hp.2⟩
      · constructor
        · rintro ⟨e, he⟩
          exact Except.noConfusion he
        · rintro (hcl | hall)
          · exact Option.noConfusion hcl
          · exact absurd ⟨hp.1, hp.2⟩ (hall blk hmem)
      · intro e he
        exact Except.noConfusion he
    | none =>
      rw [getBlockAtTimestamp_not_found c blockDb timestamp hfind]
      refine ⟨?_, ?_, ?_⟩
      · intro n h
        exact Except.noConfusion h
      · constructor
        · intro _
          refine Or.inr (fun b hb hwin => ?_)
          have := List.find?_eq_none.mp hfind b hb
          simp only [Bool.and_eq_true, decide_eq_true_eq] at this
          exact this ⟨hwin.1, hwin.2⟩
        · intro _
          exact ⟨⟨timestamp⟩, rfl⟩
      · intro e h
        injection h with h
        rw [← h]

theorem getBlockAtTimestamp_spec_witness :
    ((∀ n, getBlockAtTimestamp (some "client") [⟨7, 1000⟩, ⟨8, 1200⟩] 900 = .ok n →
        ∃ b ∈ [(⟨7, 1000⟩ : BlockEntry), ⟨8, 1200⟩], b.number = n
          ∧ 900 < b.timestamp ∧ b.timestamp < 900 + 600)
      ∧ ((∃ e, getBlockAtTimestamp (some "client") [⟨7, 1000⟩, ⟨8, 1200⟩] 900 = .error e)
        ↔ ((some "client" : Option String) = none
            ∨ ∀ b ∈ [(⟨7, 1000⟩ : BlockEntry), ⟨8, 1200⟩],
                ¬(900 < b.timestamp ∧ b.timestamp < 900 + 600)))
      ∧ (∀ e, getBlockAtTimestamp (some "client") [⟨7, 1000⟩, ⟨8, 1200⟩] 900 = .error e
          → e.timestamp = 900))
    ∧ (∀ e, getBlockAtTimestamp none [⟨7, 1000⟩] 900 = .error e → e.timestamp = 900) :=
  ⟨getBlockAtTimestamp_spec (some "client") [⟨7, 1000⟩, ⟨8, 1200⟩] 900,
   (getBlockAtTimestamp_spec none [⟨7, 1000⟩] 900).2.2⟩

theorem getFarmConfigStep_ok (b : Bool) (k : ℕ) (farms : List FarmConfig) :
    getFarmConfigStep (b, k) (.ok farms) = (b, k + 0) := rfl

theorem getFarmConfigStep_error (b : Bool) (k : ℕ) :
    getFarmConfigStep (b, k) (.error ()) = (true, k + (if b then 0 else 1)) := rfl

theorem runGetFarmConfigs_aux (loads : List (Except Unit (List FarmConfig))) :
    ∀ (b : Bool) (k : ℕ),
      (loads.foldl getFarmConfigStep (b, k)).2 ≤ k + (if b then 0 else 1) := by
  induction loads with
  | nil =>
    intro b k
    exact Nat.le_add_right k _
  | cons a loads ih =>
    intro b k
    rw [List.foldl_cons]
    cases a with
    | ok farms =>
      rw [getFarmConfigStep_ok]
      simpa using ih b (k + 0)
    | error u =>
      cases u
      rw [getFarmConfigStep_error]
      simpa using ih true (k + (if b then 0 else 1))

/-- C8: when loading a chain's farm-configuration module fails,
`getFarmConfig` catches the error, returns the empty farm list, sets the
one-shot `logged` flag, and emits a log event only when the flag was still
unset; across any sequence of invocations sharing the module-level flag, at
most one `Cannot get farm config` log is ever emitted. -/
theorem getFarmConfig_failure_spec (loadResult : Except Unit (List FarmConfig)) (logged : Bool)
    (loads : List (Except Unit (List FarmConfig))) :
    (loadResult = .error () →
      (getFarmConfig loadResult logged).1 = []
      ∧ (getFarmConfig loadResult logged).2.1 = true
      ∧ (getFarmConfig loadResult logged).2.2 = (if logged then 0 else 1))
    ∧ (runGetFarmConfigs loads).2 ≤ 1 := by
  refine ⟨?_, ?_⟩
  · rintro rfl
    exact ⟨rfl, rfl, rfl⟩
  · have h := runGetFarmConfigs_aux loads false 0
    rw [runGetFarmConfigs]
    simpa using h

theorem getFarmConfig_failure_spec_witness :
    ((Except.error () : Except Unit (List FarmConfig)) = .error ()
      ∧ ((getFarmConfig (.error ()) false).1 = []
        ∧ (getFarmConfig (.error ()) false).2.1 = true
        ∧ (getFarmConfig (.error ()) false).2.2 = (if false then 0 else 1))
      ∧ (runGetFarmConfigs [.error (), .error (), .ok [⟨some 1, "n1", none⟩]]).2 ≤ 1) := by
  have h := getFarmConfig_failure_spec (.error ()) false
    [.error (), .error (), .ok [⟨some 1, "n1", none⟩]]
  exact ⟨rfl, h.1 rfl, h.2⟩

theorem charToLower_toNat_of_upper (c : Char) (h : 65 ≤ c.toNat ∧ c.toNat ≤ 90) :
    (charToLower c).toNat = c.toNat + 32 := by
  rw [charToLower, if_pos h]
  have hvalid : (c.toNat + 32).isValidChar := Or.inl (by omega)
  rw [Char.ofNat, dif_pos hvalid]
  rfl

theorem charToLower_eq_self_of_not_upper (c : Char) (h : ¬(65 ≤ c.toNat ∧ c.toNat ≤ 90)) :
    charToLower c = c := by
  rw [charToLower, if_neg h]

theorem charToLower_not_upper (c : Char) :
    ¬(65 ≤ (charToLower c).toNat ∧ (charToLower c).toNat ≤ 90) := by
  by_cases h : 65 ≤ c.toNat ∧ c.toNat ≤ 90
  · rw [charToLower_toNat_of_upper c h]
    omega
  · rw [charToLower_eq_self_of_not_upper c h]
    exact h

theorem charToLower_idem (c : Char) : charToLower (charToLower c) = charToLower c :=
  charToLower_eq_self_of_not_upper (charToLower c) (charToLower_not_upper c)

theorem toLowerStr_idem (s : String) : toLowerStr (toLowerStr s) = toLowerStr s := by
  rw [toLowerStr, toLowerStr]
  show (⟨(s.data.map charToLower).map charToLower⟩ : String) = ⟨s.data.map charToLower⟩
  rw [List.map_map]
  have hfun : charToLower ∘ charToLower = charToLower := funext fun c => charToLower_idem c
  rw [hfun]

theorem normalFarmAprs_keys (env : ChainEnv) (s : String) (h : normalFarmAprs env s ≠ none) :
    s ∈ (splitFarmsOf env).normalFarms.map (fun farm => toLowerStr farm.lpAddress) := by
  unfold normalFarmAprs at h
  rcases foldl_merge_ne_none (fun g => getAprsForFarmGroup env.pairDb g)
      (chunk30 ((splitFarmsOf env).normalFarms.map (fun farm => toLowerStr farm.lpAddress)))
      emptyAprMap s h with ⟨g, hg, hgs⟩ | hempty
  · rw [getAprsForFarmGroup, aprsFromResponse,
      foldl_insertApr_ne_none (fun farm => farm.id)
        (fun farm => BigNum.decimalPlaces 2 (rawLpApr farm (pairsQuery env.pairDb.weekAgo g)))]
      at hgs
    rcases hgs with ⟨x, hx, rfl⟩ | hfalse
    · rw [pairsQuery] at hx
      have hx1 : x ∈ env.pairDb.latest.filter (fun p => decide (p.id ∈ g)) :=
        (List.take_sublist 30 _).subset hx
      have hxg : x.id ∈ g := of_decide_eq_true (List.mem_filter.mp hx1).2
      have hmem : x.id ∈ (chunk30 ((splitFarmsOf env).normalFarms.map
          (fun farm => toLowerStr farm.lpAddress))).flatten :=
        List.mem_flatten.mpr ⟨g, hg, hxg⟩
      rw [chunk30_flatten] at hmem
      exact hmem
    · exact absurd rfl hfalse
  · exact absurd rfl hempty

theorem stableFarmAprs_keys (env : ChainEnv) (s : String) :
    stableFarmAprs env s ≠ none
      ↔ s ∈ (splitFarmsOf env).stableFarms.map (fun g => g.lpAddress) :=
  buildStableAprsMap_ne_none (splitFarmsOf env).stableFarms
    (fun f => (getAprsForStableFarm env.blockDayAgo (env.stableQuery f)).1) s

/-- C10: in the merged output object, every key the normal-farm side can
contribute is a lower-cased LP address (lower-casing is applied before
querying, so normal keys are the `toLowerStr` images of configured
addresses), while every stable farm is keyed by its configured `lpAddress`
verbatim; consequently a stable farm whose configured address is not
already lower-case keeps its upper-case key in the merged output and that
key coincides with no normal-farm key. -/
theorem output_key_conventions (env : ChainEnv) :
    (∀ s, normalFarmAprs env s ≠ none →
        s ∈ (splitFarmsOf env).normalFarms.map (fun farm => toLowerStr farm.lpAddress))
    ∧ (∀ s, stableFarmAprs env s ≠ none
        ↔ s ∈ (splitFarmsOf env).stableFarms.map (fun g => g.lpAddress))
    ∧ (∀ f ∈ (splitFarmsOf env).stableFarms,
        fetchAndUpdateLPsAPR env f.lpAddress = stableFarmAprs env f.lpAddress
        ∧ stableFarmAprs env f.lpAddress ≠ none
        ∧ (toLowerStr f.lpAddress ≠ f.lpAddress →
            f.lpAddress ∉ (splitFarmsOf env).normalFarms.map
              (fun farm => toLowerStr farm.lpAddress))) := by
  refine ⟨normalFarmAprs_keys env, stableFarmAprs_keys env, ?_⟩
  intro f hf
  have hne : stableFarmAprs env f.lpAddress ≠ none :=
    (stableFarmAprs_keys env f.lpAddress).mpr (List.mem_map_of_mem _ hf)
  refine ⟨?_, hne, ?_⟩
  · rw [fetchAndUpdateLPsAPR]
    cases hstable : stableFarmAprs env f.lpAddress with
    | none => exact absurd hstable hne
    | some v => simp only [mergeAprMap, hstable]
  · intro hcase hmem
    obtain ⟨g, hg, hgs⟩ := List.mem_map.mp hmem
    apply hcase
    rw [← hgs, toLowerStr_idem]

theorem output_key_conventions_witness :
    (∀ s, normalFarmAprs sampleChainEnv s ≠ none →
        s ∈ (splitFarmsOf sampleChainEnv).normalFarms.map (fun farm => toLowerStr farm.lpAddress))
    ∧ (∀ s, stableFarmAprs sampleChainEnv s ≠ none
        ↔ s ∈ (splitFarmsOf sampleChainEnv).stableFarms.map (fun g => g.lpAddress))
    ∧ (∀ f ∈ (splitFarmsOf sampleChainEnv).stableFarms,
        fetchAndUpdateLPsAPR sampleChainEnv f.lpAddress
          = stableFarmAprs sampleChainEnv f.lpAddress
        ∧ stableFarmAprs sampleChainEnv f.lpAddress ≠ none
        ∧ (toLowerStr f.lpAddress ≠ f.lpAddress →
            f.lpAddress ∉ (splitFarmsOf sampleChainEnv).normalFarms.map
              (fun farm => toLowerStr farm.lpAddress))) :=
  output_key_conventions sampleChainEnv
